import Mathlib

/-!
# A shallow embedding of the engiffen palette/quantization engine

This file embeds the core of `src/lib.rs` of the engiffen crate: the
`engiffen` entry point, its two palettization strategies
(`naive_palettize` and `neuquant_palettize`), and the delay arithmetic of
`Gif::write`.  Machine integers (`u8`, `u16`, `u32`, `usize`) are
modelled as `Nat`, with `% 2^w` written explicitly at the places where the
source performs a narrowing `as` cast.  Rust code that can panic
(integer division by zero, `expect`, out-of-bounds indexing) is modelled
with `Option` / an explicit `panics` result.

External collaborators are abstracted as parameters:
* the `color_quant::NeuQuant` trainer is a parameter producing a
  `NeuQuantModel` (a 256-entry RGB palette plus an index lookup), as the
  spec describes it;
* the `lab` crate's RGB→CIE-Lab conversion is a parameter
  `lab : LabFn D` into an arbitrary linearly ordered commutative ring
  `D` of coordinates (the crate uses `f32`; `Lab::from_rgba` reads only
  the R, G, B bytes, so the parameter takes only those three bytes);
  `squared_distance` is the squared Euclidean distance on such triples,
  as in the crate.
* the `FnvHashMap` of color frequencies is modelled as an
  insertion-ordered association list; because the iteration order of the
  real hash map after the parallel `rayon` merge is not fixed by the
  source, `engiffen` additionally takes an `order` parameter standing
  for the order in which the hash map yields its entries.  Theorems that
  need a faithful order assume it is a permutation of the canonical
  (sequential, first-occurrence) frequency table.
* `Vec::sort_by` is a stable sort; it is modelled by `insertionSort`,
  which computes the same (unique) stably sorted permutation.
-/

set_option maxRecDepth 100000

/-- An RGBA color, one byte per channel (`type RGBA = [u8; 4]`).  Map keys
compare by exact byte equality, as in the source. -/
structure Pixel where
  r : Nat
  g : Nat
  b : Nat
  a : Nat
deriving DecidableEq, Repr

instance : Inhabited Pixel := ⟨⟨0, 0, 0, 0⟩⟩

/-- An in-memory frame: a `width × height` grid of RGBA pixels
(`image::DynamicImage`, restricted to what the engine reads from it). -/
structure Image where
  width : Nat
  height : Nat
  pix : Nat → Nat → Pixel

/-- The pixel iterator `img.inner.pixels()`: yields `(x, y, pixel)` in
raster order (row by row, `x` fastest). -/
def Image.pixelsList (img : Image) : List (Nat × Nat × Pixel) :=
  (List.range img.height).flatMap fun y =>
    (List.range img.width).map fun x => (x, y, img.pix x y)

/-- The colors of a frame's pixels in raster order. -/
def Image.pixelColors (img : Image) : List Pixel :=
  img.pixelsList.map fun t => t.2.2

/-- `(img.width(), img.height())`. -/
def dims (img : Image) : Nat × Nat := (img.width, img.height)

/-- The `Quantizer` enum selecting the palettization strategy. -/
inductive Quantizer
  | Naive
  | NeuQuant (sampleRate : Nat)
deriving DecidableEq, Repr

/-- The `Error` enum.  `ImageLoad` / `ImageWrite` wrap external I/O errors
whose payloads the core never inspects. -/
inductive Error
  | NoImages
  | Mismatch (expected actual : Nat × Nat)
  | ImageLoad
  | ImageWrite
deriving DecidableEq, Repr

/-- The `Gif` struct.  `width`, `height` and `delay` are `u16` in the
source; the narrowing `as u16` casts are the explicit `% 65536` at the
construction site in `engiffen`. -/
structure Gif where
  palette : List Nat
  transparency : Option Nat
  width : Nat
  height : Nat
  images : List (List Nat)
  delay : Nat
deriving DecidableEq, Repr

/-- Result of a call to `engiffen`: a value, a typed error, or a Rust
panic (division by zero, `expect` failure, out-of-bounds indexing). -/
inductive EResult
  | panics
  | err (e : Error)
  | ok (g : Gif)
deriving DecidableEq, Repr

/-- Lookup in a hash map modelled as an association list
(`map.get(&k)`). -/
def mapGet? : List (Pixel × Nat) → Pixel → Option Nat
  | [], _ => none
  | (k, v) :: rest, c => if k = c then some v else mapGet? rest c

/-- Insert-or-overwrite in a hash map modelled as an insertion-ordered
association list (`map.insert(k, v)`). -/
def mapInsert : List (Pixel × Nat) → Pixel → Nat → List (Pixel × Nat)
  | [], c, n => [(c, n)]
  | (k, v) :: rest, c, n =>
      if k = c then (k, n) :: rest else (k, v) :: mapInsert rest c n

/-- `*map.entry(c).or_insert(0) += n`: bump the count of `c` by `n`,
appending a fresh entry when `c` is absent. -/
def bumpBy : List (Pixel × Nat) → Pixel → Nat → List (Pixel × Nat)
  | [], c, n => [(c, n)]
  | (k, v) :: rest, c, n =>
      if k = c then (k, v + n) :: rest else (k, v) :: bumpBy rest c n

/-- The per-frame frequency table of `naive_palettize` (the closure of the
`par_iter().map(...)`): exact-color occurrence counts over one frame. -/
def imageFreq (img : Image) : List (Pixel × Nat) :=
  img.pixelColors.foldl (fun fr c => bumpBy fr c 1) []

/-- The merge step of the `rayon` reduce: fold one frequency table into an
accumulator by summing matching keys. -/
def mergeFreq (acc fr : List (Pixel × Nat)) : List (Pixel × Nat) :=
  fr.foldl (fun a kv => bumpBy a kv.1 kv.2) acc

/-- The merged color-frequency table of `naive_palettize`, in the
canonical sequential order (frames merged left to right; keys in order of
first appearance). -/
def frequencies (imgs : List Image) : List (Pixel × Nat) :=
  (imgs.map imageFreq).foldl mergeFreq []

/-- The count recorded for a color in a frequency table (`0` when
absent). -/
def getCount (fr : List (Pixel × Nat)) (c : Pixel) : Nat :=
  match fr with
  | [] => 0
  | (k, v) :: rest => if k = c then v else getCount rest c

section NaiveStrategy

variable {D : Type} [LinearOrderedCommRing D]

/-- The type of the external `lab` crate's `Lab::from_rgba` conversion,
abstracted: it reads only the R, G, B bytes of a color (the crate ignores
the alpha byte) and yields a CIE-Lab coordinate triple.  The crate works
in `f32`; the coordinate ring `D` is kept abstract. -/
abbrev LabFn (D : Type) := Nat → Nat → Nat → D × D × D

/-- `Lab::from_rgba(&c)`: convert a color, ignoring its alpha byte. -/
def labOfPixel (lab : LabFn D) (c : Pixel) : D × D × D := lab c.r c.g c.b

/-- `Lab::squared_distance`: squared Euclidean distance between two Lab
triples. -/
def squared_distance (p q : D × D × D) : D :=
  (p.1 - q.1) * (p.1 - q.1) + (p.2.1 - q.2.1) * (p.2.1 - q.2.1) +
    (p.2.2 - q.2.2) * (p.2.2 - q.2.2)

/-- One step of the fold in `naive_palettize` that scans the palette for
the entry closest to `cl`.  The state is `(index, best distance)`, with
`none` standing for the initial `f32::INFINITY` (which every finite
distance replaces, since `INFINITY < d` is false). -/
def closestStep (cl : D × D × D) (closest : Nat × Option D)
    (ip : Nat × Pixel × (D × D × D)) : Nat × Option D :=
  let dist := squared_distance ip.2.2 cl
  match closest.2 with
  | none => (ip.1, some dist)
  | some b => if b < dist then closest else (ip.1, some dist)

/-- `palette.iter().enumerate().fold((0, f32::INFINITY), ...).0`: the
index of the palette entry closest to `cl`. -/
def closestIndex (palette : List (Pixel × (D × D × D))) (cl : D × D × D) : Nat :=
  (palette.enum.foldl (closestStep cl) (0, none)).1

/-- `sorted_frequencies.sort_by(|a, b| b.1.cmp(&a.1))`: stable sort by
descending count.  `insertionSort` computes the same list as Rust's
stable `sort_by` (the stably sorted permutation is unique). -/
def sortByFreqDesc (l : List (Pixel × Nat)) : List (Pixel × Nat) :=
  l.insertionSort (fun x y => y.2 ≤ x.2)

/-- The `sorted` list of `naive_palettize`: the frequency table (in hash
iteration order `order`) stably sorted by descending count, each color
paired with its Lab conversion. -/
def naiveSorted (lab : LabFn D) (order : List (Pixel × Nat)) :
    List (Pixel × (D × D × D)) :=
  (sortByFreqDesc order).map fun c => (c.1, labOfPixel lab c.1)

/-- The `palette` half of the split `(&sorted[..256], &sorted[256..])`. -/
def naivePalette (lab : LabFn D) (order : List (Pixel × Nat)) :
    List (Pixel × (D × D × D)) :=
  let s := naiveSorted lab order
  if 256 < s.length then s.take 256 else s

/-- The `rest` half of the split: colors that did not fit the palette. -/
def naiveRest (lab : LabFn D) (order : List (Pixel × Nat)) :
    List (Pixel × (D × D × D)) :=
  let s := naiveSorted lab order
  if 256 < s.length then s.drop 256 else []

/-- The first loop of `naive_palettize`'s map construction: every palette
color mapped to its own position (`i as u8` is the `% 256`). -/
def naiveMap0 (lab : LabFn D) (order : List (Pixel × Nat)) :
    List (Pixel × Nat) :=
  (naivePalette lab order).enum.foldl
    (fun m ic => mapInsert m ic.2.1 (ic.1 % 256)) []

/-- The second loop of `naive_palettize`: assign every `rest` color the
index of the closest palette color.  `none` models the panics of the
out-of-bounds `palette[closest_index]` and of
`map.get(&closest_rgb).expect(..)`. -/
def assignRest (palette : List (Pixel × (D × D × D)))
    (m : List (Pixel × Nat)) :
    List (Pixel × (D × D × D)) → Option (List (Pixel × Nat))
  | [] => some m
  | c :: cs =>
      match palette[closestIndex palette c.2]? with
      | none => none
      | some p =>
          match mapGet? m p.1 with
          | none => none
          | some idx => assignRest palette (mapInsert m c.1 idx) cs

/-- The completed color → index map of `naive_palettize`. -/
def naiveMap (lab : LabFn D) (order : List (Pixel × Nat)) :
    Option (List (Pixel × Nat)) :=
  assignRest (naivePalette lab order) (naiveMap0 lab order)
    (naiveRest lab order)

/-- Collect a list of fallible lookups, failing if any fails (the
`.expect(..)` panics of the mapping loops are the `none` case). -/
def optTraverse (f : α → Option β) : List α → Option (List β)
  | [] => some []
  | x :: l =>
      match f x, optTraverse f l with
      | some y, some ys => some (y :: ys)
      | _, _ => none

/-- `palette_as_bytes`: the palette colors flattened to R, G, B bytes. -/
def paletteBytes (lab : LabFn D) (order : List (Pixel × Nat)) : List Nat :=
  (naivePalette lab order).flatMap fun c => [c.1.r, c.1.g, c.1.b]

/-- `naive_palettize` (src/lib.rs, lines 338–405): frequency counting has
already produced `order` (the table in hash iteration order); sort it,
split palette from rest, map the rest to closest palette entries, then
index every pixel of every frame through the map.  Returns
`(palette bytes, index frames, transparency)`; `none` models a panic. -/
def naive_palettize (lab : LabFn D) (order : List (Pixel × Nat))
    (imgs : List Image) :
    Option (List Nat × List (List Nat) × Option Nat) :=
  match naiveMap lab order with
  | none => none
  | some m =>
      match optTraverse (fun img => optTraverse (mapGet? m) img.pixelColors) imgs with
      | none => none
      | some pimgs => some (paletteBytes lab order, pimgs, none)

end NaiveStrategy

/-- Modelled from the spec: the external `color_quant::NeuQuant` trainer
(`NeuQuant::new(10, 256, &colors)`), whose code is not part of this
repository.  Per the spec it yields a 256-entry RGB palette
(`color_map_rgb()`, 768 bytes) and a nearest-palette-index lookup
(`index_of`).  The `as u8` cast applied to `index_of`'s result in the
source is modelled at the call sites as `% 256`. -/
structure NeuQuantModel where
  colorMapRgb : List Nat
  indexOf : Pixel → Nat
  colorMapRgb_length : colorMapRgb.length = 768

/-- The body of the sampling loop of `neuquant_palettize`: a pixel is
skipped unless its column and row are multiples of the sample rate
(no filtering when the rate is 1); a fully transparent pixel contributes
the `transparent_black` sentinel `[0,0,0,0]`, any other pixel its RGB
bytes with alpha forced to 255. -/
def samplePixel (sampleRate x y : Nat) (px : Pixel) : List Nat :=
  if 1 < sampleRate ∧ (x % sampleRate ≠ 0 ∨ y % sampleRate ≠ 0) then []
  else if px.a = 0 then [0, 0, 0, 0]
  else [px.r, px.g, px.b, 255]

/-- The `colors` sample sequence fed to the NeuQuant trainer: sampled,
normalized bytes of every frame, concatenated in frame order (the `rayon`
reduce concatenates with the associative `extend_from_slice`, so the
result is order-independent). -/
def sampleColors (sampleRate : Nat) (imgs : List Image) : List Nat :=
  imgs.flatMap fun img =>
    img.pixelsList.flatMap fun t => samplePixel sampleRate t.1 t.2.1 t.2.2

/-- One pixel of the NeuQuant mapping pass:
`*cache.entry(px.data).or_insert_with(|| { ... })`.  On a cache miss the
index is resolved through the trainer (`index_of(..) as u8`) and, when
the pixel is fully transparent, recorded as the transparency candidate,
overwriting any prior candidate. -/
def nqResolve (quant : NeuQuantModel)
    (st : List (Pixel × Nat) × Option Nat) (px : Pixel) :
    (List (Pixel × Nat) × Option Nat) × Nat :=
  match mapGet? st.1 px with
  | some idx => (st, idx)
  | none =>
      let idx := quant.indexOf px % 256
      ((mapInsert st.1 px idx, if px.a = 0 then some idx else st.2), idx)

/-- The NeuQuant mapping pass over one frame's pixels, threading the
cache and the transparency candidate. -/
def nqMapPixels (quant : NeuQuantModel)
    (st : List (Pixel × Nat) × Option Nat) :
    List Pixel → (List (Pixel × Nat) × Option Nat) × List Nat
  | [] => (st, [])
  | px :: rest =>
      let r1 := nqResolve quant st px
      let r2 := nqMapPixels quant r1.1 rest
      (r2.1, r1.2 :: r2.2)

/-- The NeuQuant mapping pass over all frames (`imgs.iter().map(..)`,
sequential in the source), producing one index frame per input frame. -/
def nqMapImages (quant : NeuQuantModel)
    (st : List (Pixel × Nat) × Option Nat) :
    List Image → (List (Pixel × Nat) × Option Nat) × List (List Nat)
  | [] => (st, [])
  | img :: rest =>
      let r1 := nqMapPixels quant st img.pixelColors
      let r2 := nqMapImages quant r1.1 rest
      (r2.1, r1.2 :: r2.2)

/-- `neuquant_palettize` (src/lib.rs, lines 288–336): sample and
normalize the pixels, train the quantizer, then map every pixel of every
frame through it with an exact-color cache.  `none` models the division
by zero in `width * height * 4 / sample_rate / sample_rate` when the
sample rate is 0. -/
def neuquant_palettize (nqNew : List Nat → NeuQuantModel)
    (imgs : List Image) (sampleRate : Nat) :
    Option (List Nat × List (List Nat) × Option Nat) :=
  if sampleRate = 0 then none
  else
    let quant := nqNew (sampleColors sampleRate imgs)
    let r := nqMapImages quant ([], none) imgs
    some (quant.colorMapRgb, r.2, r.1.2)

/-- The dimension check of `engiffen`: scan the frames in order and
report the first whose dimensions differ from the first frame's. -/
def findMismatch (d0 : Nat × Nat) : List Image → Option (Nat × Nat)
  | [] => none
  | img :: rest => if dims img ≠ d0 then some (dims img) else findMismatch d0 rest

/-- The `match quantizer` of `engiffen` (src/lib.rs, lines 271–274):
dispatch to the selected palettization strategy. -/
def palettizeOf {D : Type} [LinearOrderedCommRing D] (lab : LabFn D)
    (nqNew : List Nat → NeuQuantModel)
    (order : List (Pixel × Nat) → List (Pixel × Nat))
    (imgs : List Image) (q : Quantizer) :
    Option (List Nat × List (List Nat) × Option Nat) :=
  match q with
  | .NeuQuant sampleRate => neuquant_palettize nqNew imgs sampleRate
  | .Naive => naive_palettize lab (order (frequencies imgs)) imgs

/-- `engiffen` (src/lib.rs, lines 253–286).  Parameters `lab`, `nqNew`
and `order` stand for the external Lab conversion, the external NeuQuant
trainer, and the unspecified iteration order of the frequency hash map
(a function applied to the canonical table).  `fps = 0` makes the delay
computation `(1000 / fps) as u16` divide by zero, a panic. -/
def engiffen {D : Type} [LinearOrderedCommRing D] (lab : LabFn D)
    (nqNew : List Nat → NeuQuantModel)
    (order : List (Pixel × Nat) → List (Pixel × Nat))
    (imgs : List Image) (fps : Nat) (q : Quantizer) : EResult :=
  match imgs with
  | [] => .err .NoImages
  | first :: _ =>
      match findMismatch (dims first) imgs with
      | some d => .err (.Mismatch (dims first) d)
      | none =>
          match palettizeOf lab nqNew order imgs q with
          | none => .panics
          | some (palette, pimgs, tr) =>
              if fps = 0 then .panics
              else
                .ok { palette := palette
                      transparency := tr
                      width := first.width % 65536
                      height := first.height % 65536
                      images := pimgs
                      delay := (1000 / fps) % 65536 }

/-- The per-frame delays written by `Gif::write`: the loop
`for img in &self.images` sets `frame.delay = self.delay / 10` for each
frame (`u16` division, truncating to hundredths of a second). -/
def Gif.writtenDelays (g : Gif) : List Nat :=
  g.images.map fun _ => g.delay / 10

/-- The distinct colors of a pixel sequence in order of first occurrence.
During the NeuQuant mapping pass a color is *resolved* (looked up in the
trainer, on a cache miss) exactly at its first occurrence, so this is
the resolution order of the pass. -/
def firstOccurrences : List Pixel → List Pixel :=
  fun l => l.foldl (fun acc c => if c ∈ acc then acc else acc ++ [c]) []

/-- The order in which the NeuQuant mapping pass resolves distinct colors
across the whole frame sequence. -/
def resolutionOrder (imgs : List Image) : List Pixel :=
  firstOccurrences (imgs.flatMap Image.pixelColors)

/-- A concrete Lab conversion instantiating the abstract `lab` parameter
in concrete runs: integer coordinates given by the RGB bytes. -/
def labLin : LabFn ℤ := fun r g b => ((r : ℤ), (g : ℤ), (b : ℤ))

/-- A concrete NeuQuant trainer model for concrete runs: a constant black
palette and a lookup resolving every color to its red byte. -/
def constNQ : List Nat → NeuQuantModel := fun _ =>
  { colorMapRgb := List.replicate 768 0
    indexOf := fun px => px.r
    colorMapRgb_length := List.length_replicate 768 0 }

theorem mapGet?_mapInsert (m : List (Pixel × Nat)) (k c : Pixel) (v : Nat) :
    mapGet? (mapInsert m k v) c = if k = c then some v else mapGet? m c := by
  induction m with
  | nil => simp [mapInsert, mapGet?]
  | cons kv rest ih =>
      obtain ⟨k', v'⟩ := kv
      by_cases hk : k' = k
      · subst hk
        simp only [mapInsert, if_pos rfl, mapGet?]
        by_cases hc : k' = c <;> simp [hc]
      · simp only [mapInsert, if_neg hk, mapGet?]
        by_cases hc : k' = c
        · subst hc
          have : ¬ (k = k') := fun h => hk h.symm
          simp [this]
        · simp [hc, ih]

theorem mapGet?_isSome_iff_mem (m : List (Pixel × Nat)) (c : Pixel) :
    (mapGet? m c).isSome ↔ c ∈ m.map Prod.fst := by
  induction m with
  | nil => simp [mapGet?]
  | cons kv rest ih =>
      obtain ⟨k, v⟩ := kv
      by_cases hk : k = c <;> simp [mapGet?, hk, ih]
      exact fun h => (hk h.symm).elim

theorem getCount_bumpBy (fr : List (Pixel × Nat)) (c c' : Pixel) (n : Nat) :
    getCount (bumpBy fr c n) c' = getCount fr c' + if c = c' then n else 0 := by
  induction fr with
  | nil =>
      simp only [bumpBy, getCount]
      by_cases hc : c = c' <;> simp [hc]
  | cons kv rest ih =>
      obtain ⟨k, v⟩ := kv
      by_cases hk : k = c
      · subst hk
        simp only [bumpBy, if_pos rfl, getCount]
        by_cases hc : k = c' <;> simp [hc]
      · simp only [bumpBy, if_neg hk, getCount]
        by_cases hc : k = c' <;> simp [hc, ih]
        subst hc
        have : ¬ (c = k) := fun h => hk h.symm
        simp [this]

theorem mapGet?_isSome_bumpBy (fr : List (Pixel × Nat)) (c c' : Pixel) (n : Nat) :
    (mapGet? (bumpBy fr c n) c').isSome ↔ c = c' ∨ (mapGet? fr c').isSome := by
  induction fr with
  | nil =>
      simp only [bumpBy, mapGet?]
      by_cases hc : c = c' <;> simp [hc]
  | cons kv rest ih =>
      obtain ⟨k, v⟩ := kv
      by_cases hk : k = c
      · subst hk
        simp only [bumpBy, if_pos rfl, mapGet?]
        by_cases hc : k = c' <;> simp [hc]
      · simp only [bumpBy, if_neg hk, mapGet?]
        by_cases hc : k = c' <;> simp [hc, ih]

theorem optTraverse_length {α β : Type} {f : α → Option β} :
    ∀ {l : List α} {l' : List β}, optTraverse f l = some l' → l'.length = l.length := by
  intro l
  induction l with
  | nil => intro l' h; simp [optTraverse] at h; simp [← h]
  | cons x xs ih =>
      intro l' h
      simp only [optTraverse] at h
      cases hf : f x with
      | none => rw [hf] at h; simp at h
      | some y =>
          rw [hf] at h
          cases ht : optTraverse f xs with
          | none => rw [ht] at h; simp at h
          | some ys =>
              rw [ht] at h
              simp at h
              subst h
              simp [ih ht]

theorem optTraverse_isSome {α β : Type} {f : α → Option β} :
    ∀ {l : List α}, (∀ x ∈ l, (f x).isSome) → ∃ l', optTraverse f l = some l' := by
  intro l
  induction l with
  | nil => intro _; exact ⟨[], rfl⟩
  | cons x xs ih =>
      intro h
      obtain ⟨y, hy⟩ := Option.isSome_iff_exists.mp (h x (by simp))
      obtain ⟨ys, hys⟩ := ih (fun z hz => h z (by simp [hz]))
      exact ⟨y :: ys, by simp [optTraverse, hy, hys]⟩

theorem optTraverse_mem {α β : Type} {f : α → Option β} :
    ∀ {l : List α} {l' : List β}, optTraverse f l = some l' →
      ∀ y ∈ l', ∃ x ∈ l, f x = some y := by
  intro l
  induction l with
  | nil =>
      intro l' h
      simp [optTraverse] at h
      subst h
      simp
  | cons x xs ih =>
      intro l' h
      simp only [optTraverse] at h
      cases hf : f x with
      | none => rw [hf] at h; simp at h
      | some y0 =>
          rw [hf] at h
          cases ht : optTraverse f xs with
          | none => rw [ht] at h; simp at h
          | some ys =>
              rw [ht] at h
              simp at h
              subst h
              intro y hy
              rcases List.mem_cons.mp hy with h1 | h2
              · exact ⟨x, by simp, by rw [hf, h1]⟩
              · obtain ⟨x', hx', hfx'⟩ := ih ht y h2
                exact ⟨x', by simp [hx'], hfx'⟩

theorem pixelsList_length (img : Image) :
    img.pixelsList.length = img.width * img.height := by
  unfold Image.pixelsList
  rw [List.length_flatMap]
  have h1 : List.map (List.length ∘ fun y =>
      (List.range img.width).map fun x => (x, y, img.pix x y)) (List.range img.height)
      = List.map (fun _ => img.width) (List.range img.height) :=
    List.map_congr_left (fun y _ => by simp)
  rw [h1, List.map_const', List.length_range, List.sum_replicate, smul_eq_mul,
    Nat.mul_comm]

theorem pixelColors_length (img : Image) :
    img.pixelColors.length = img.width * img.height := by
  unfold Image.pixelColors
  rw [List.length_map, pixelsList_length]

theorem mapGet?_isSome_bumpFold (l : List Pixel) :
    ∀ (fr : List (Pixel × Nat)) (c : Pixel),
      (mapGet? (l.foldl (fun fr c => bumpBy fr c 1) fr) c).isSome ↔
        c ∈ l ∨ (mapGet? fr c).isSome := by
  induction l with
  | nil => simp
  | cons x xs ih =>
      intro fr c
      simp only [List.foldl_cons, ih, mapGet?_isSome_bumpBy, List.mem_cons]
      constructor
      · rintro (h | h | h)
        · exact Or.inl (Or.inr h)
        · exact Or.inl (Or.inl h.symm)
        · exact Or.inr h
      · rintro ((h | h) | h)
        · exact Or.inr (Or.inl h.symm)
        · exact Or.inl h
        · exact Or.inr (Or.inr h)

theorem mergeFreq_cons (acc : List (Pixel × Nat)) (kv : Pixel × Nat)
    (rest : List (Pixel × Nat)) :
    mergeFreq acc (kv :: rest) = mergeFreq (bumpBy acc kv.1 kv.2) rest := rfl

theorem mapGet?_isSome_mergeFreq (entries : List (Pixel × Nat)) :
    ∀ (acc : List (Pixel × Nat)) (c : Pixel),
      (mapGet? (mergeFreq acc entries) c).isSome ↔
        (mapGet? acc c).isSome ∨ c ∈ entries.map Prod.fst := by
  induction entries with
  | nil => simp [mergeFreq]
  | cons kv rest ih =>
      intro acc c
      rw [mergeFreq_cons, ih, mapGet?_isSome_bumpBy]
      simp only [List.map_cons, List.mem_cons]
      constructor
      · rintro ((h | h) | h)
        · exact Or.inr (Or.inl h.symm)
        · exact Or.inl h
        · exact Or.inr (Or.inr h)
      · rintro (h | h | h)
        · exact Or.inl (Or.inr h)
        · exact Or.inl (Or.inl h.symm)
        · exact Or.inr h

theorem mapGet?_isSome_mergeFold (tables : List (List (Pixel × Nat))) :
    ∀ (acc : List (Pixel × Nat)) (c : Pixel),
      (mapGet? (tables.foldl mergeFreq acc) c).isSome ↔
        (mapGet? acc c).isSome ∨ ∃ fr ∈ tables, c ∈ fr.map Prod.fst := by
  induction tables with
  | nil => simp
  | cons fr rest ih =>
      intro acc c
      simp only [List.foldl_cons, ih, mapGet?_isSome_mergeFreq, List.mem_cons]
      constructor
      · rintro ((h | h) | ⟨fr', hfr', hc⟩)
        · exact Or.inl h
        · exact Or.inr ⟨fr, Or.inl rfl, h⟩
        · exact Or.inr ⟨fr', Or.inr hfr', hc⟩
      · rintro (h | ⟨fr', hfr' | hfr', hc⟩)
        · exact Or.inl (Or.inl h)
        · exact Or.inl (Or.inr (hfr' ▸ hc))
        · exact Or.inr ⟨fr', hfr', hc⟩

theorem imageFreq_keys (img : Image) (c : Pixel) :
    c ∈ (imageFreq img).map Prod.fst ↔ c ∈ img.pixelColors := by
  rw [← mapGet?_isSome_iff_mem]
  unfold imageFreq
  rw [mapGet?_isSome_bumpFold]
  simp [mapGet?]

theorem frequencies_keys (imgs : List Image) (c : Pixel) :
    c ∈ (frequencies imgs).map Prod.fst ↔ c ∈ imgs.flatMap Image.pixelColors := by
  rw [← mapGet?_isSome_iff_mem]
  unfold frequencies
  rw [mapGet?_isSome_mergeFold]
  simp only [mapGet?, Option.isSome_none, Bool.false_eq_true, false_or,
    List.mem_flatMap]
  constructor
  · rintro ⟨fr, hfr, hc⟩
    obtain ⟨img, himg, rfl⟩ := List.mem_map.mp hfr
    exact ⟨img, himg, (imageFreq_keys img c).mp hc⟩
  · rintro ⟨img, himg, hc⟩
    exact ⟨imageFreq img, List.mem_map_of_mem imageFreq himg,
      (imageFreq_keys img c).mpr hc⟩

/-- A 2×1 frame with two distinct opaque colors (for concrete runs). -/
def imgA : Image := ⟨2, 1, fun x _ => if x = 0 then ⟨0,0,0,255⟩ else ⟨1,1,1,255⟩⟩

/-- A 2×1 frame mixing a fully transparent pixel and an opaque pixel. -/
def imgB : Image := ⟨2, 1, fun x _ => if x = 0 then ⟨7,0,0,0⟩ else ⟨9,1,1,255⟩⟩

/-- A 3×1 single-color frame (for the dimension-mismatch run). -/
def imgC : Image := ⟨3, 1, fun _ _ => ⟨0,0,0,255⟩⟩

/-- C5: with an empty frame list, `engiffen` returns the `NoImages` error
whatever the fps and quantizer are — in particular for `fps = 0` (which
would otherwise panic in the delay computation) and for either strategy
with any stride, which is how the model expresses that the emptiness
check precedes the dimension check, both quantization strategies and the
delay computation. -/
theorem engiffen_empty_no_images {D : Type} [LinearOrderedCommRing D]
    (lab : LabFn D) (nqNew : List Nat → NeuQuantModel)
    (order : List (Pixel × Nat) → List (Pixel × Nat))
    (fps : Nat) (q : Quantizer) :
    engiffen lab nqNew order [] fps q = .err .NoImages := rfl

theorem findMismatch_spec (d0 : Nat × Nat) :
    ∀ (l : List Image) (k : Nat) (imgk : Image),
      l[k]? = some imgk → dims imgk ≠ d0 →
      (∀ j imgj, j < k → l[j]? = some imgj → dims imgj = d0) →
      findMismatch d0 l = some (dims imgk) := by
  intro l
  induction l with
  | nil => intro k imgk h; simp at h
  | cons img rest ih =>
      intro k imgk hk hne hbefore
      cases k with
      | zero =>
          simp only [List.getElem?_cons_zero, Option.some.injEq] at hk
          subst hk
          simp [findMismatch, hne]
      | succ k' =>
          have h0 : dims img = d0 := hbefore 0 img (Nat.succ_pos k') (by simp)
          have hrec := ih k' imgk (by simpa using hk) hne
            (fun j imgj hj hget => hbefore (j + 1) imgj (by omega) (by simpa using hget))
          simp [findMismatch, h0, hrec]

/-- C4: when some frame's dimensions differ from the first frame's,
`engiffen` fails with `Mismatch` carrying the first frame's dimensions
and those of the first frame (in list order) that diverges from them.
The result does not depend on the quantizer, the Lab conversion, the
trainer or the frequency-table order — the check precedes all palette
and quantization work. -/
theorem engiffen_first_mismatch {D : Type} [LinearOrderedCommRing D]
    (lab : LabFn D) (nqNew : List Nat → NeuQuantModel)
    (order : List (Pixel × Nat) → List (Pixel × Nat))
    (fps : Nat) (q : Quantizer) (first : Image) (rest : List Image)
    (k : Nat) (imgk : Image)
    (hk : (first :: rest)[k]? = some imgk)
    (hne : dims imgk ≠ dims first)
    (hbefore : ∀ j imgj, j < k → (first :: rest)[j]? = some imgj →
      dims imgj = dims first) :
    engiffen lab nqNew order (first :: rest) fps q
      = .err (.Mismatch (dims first) (dims imgk)) := by
  have hfm := findMismatch_spec (dims first) (first :: rest) k imgk hk hne hbefore
  simp [engiffen, hfm]

/-- Witness for C4 at a concrete input: a 2×1 frame followed by a 3×1
frame fails with `Mismatch ((2,1), (3,1))`. -/
theorem engiffen_first_mismatch_witness :
    engiffen labLin constNQ id [imgA, imgC] 10 .Naive
      = .err (.Mismatch (dims imgA) (dims imgC)) :=
  engiffen_first_mismatch labLin constNQ id 10 .Naive imgA [imgC] 1 imgC rfl
    (by decide)
    (fun j imgj hj hget => by
      cases j with
      | zero =>
          simp only [List.getElem?_cons_zero] at hget
          exact (Option.some.inj hget) ▸ rfl
      | succ j' => omega)

/-- Unfolding of `engiffen` on a non-empty frame list. -/
theorem engiffen_cons {D : Type} [LinearOrderedCommRing D]
    (lab : LabFn D) (nqNew : List Nat → NeuQuantModel)
    (order : List (Pixel × Nat) → List (Pixel × Nat))
    (first : Image) (rest : List Image) (fps : Nat) (q : Quantizer) :
    engiffen lab nqNew order (first :: rest) fps q =
      match findMismatch (dims first) (first :: rest) with
      | some d => .err (.Mismatch (dims first) d)
      | none =>
          match palettizeOf lab nqNew order (first :: rest) q with
          | none => .panics
          | some (pal, pimgs, tr) =>
              if fps = 0 then .panics
              else .ok (Gif.mk pal tr (first.width % 65536)
                  (first.height % 65536) pimgs ((1000 / fps) % 65536)) := rfl

/-- Inversion of a successful `engiffen` call: the input was non-empty,
the dimension check passed, the fps was nonzero, the selected strategy
succeeded, and the `Gif` is assembled from its output. -/
theorem engiffen_ok_inv {D : Type} [LinearOrderedCommRing D]
    {lab : LabFn D} {nqNew : List Nat → NeuQuantModel}
    {order : List (Pixel × Nat) → List (Pixel × Nat)}
    {imgs : List Image} {fps : Nat} {q : Quantizer} {g : Gif}
    (h : engiffen lab nqNew order imgs fps q = .ok g) :
    ∃ first rest pal pimgs tr, imgs = first :: rest ∧
      findMismatch (dims first) imgs = none ∧ fps ≠ 0 ∧
      palettizeOf lab nqNew order imgs q = some (pal, pimgs, tr) ∧
      g = { palette := pal, transparency := tr,
            width := first.width % 65536, height := first.height % 65536,
            images := pimgs, delay := (1000 / fps) % 65536 } := by
  cases imgs with
  | nil => exact absurd h (by simp [engiffen])
  | cons first rest =>
      rw [engiffen_cons] at h
      cases hfm : findMismatch (dims first) (first :: rest) with
      | some d => rw [hfm] at h; simp at h
      | none =>
          rw [hfm] at h
          cases hpal : palettizeOf lab nqNew order (first :: rest) q with
          | none => rw [hpal] at h; simp at h
          | some r =>
              obtain ⟨pal, pimgs, tr⟩ := r
              rw [hpal] at h
              replace h : (if fps = 0 then EResult.panics
                  else EResult.ok (Gif.mk pal tr (first.width % 65536)
                    (first.height % 65536) pimgs ((1000 / fps) % 65536)))
                  = .ok g := h
              by_cases hfps : fps = 0
              · rw [if_pos hfps] at h; simp at h
              · rw [if_neg hfps] at h
                exact ⟨first, rest, pal, pimgs, tr, rfl, hfm, hfps, rfl,
                  (EResult.ok.inj h).symm⟩

/-- C9: on any successful call with positive fps, the stored delay is
exactly `1000 / fps` (integer division; the `as u16` cast does not
truncate since `1000 / fps ≤ 1000 < 65536`), and `Gif::write` writes
`delay / 10` — that stored delay further divided by 10, truncating to
the bitstream's hundredths of a second — for every frame. -/
theorem engiffen_delay_arith {D : Type} [LinearOrderedCommRing D]
    (lab : LabFn D) (nqNew : List Nat → NeuQuantModel)
    (order : List (Pixel × Nat) → List (Pixel × Nat))
    (imgs : List Image) (fps : Nat) (q : Quantizer) (g : Gif)
    (hfps : 1 ≤ fps)
    (h : engiffen lab nqNew order imgs fps q = .ok g) :
    g.delay = 1000 / fps ∧
      g.writtenDelays = g.images.map fun _ => (1000 / fps) / 10 := by
  have hmod : (1000 / fps) % 65536 = 1000 / fps :=
    Nat.mod_eq_of_lt (lt_of_le_of_lt (Nat.div_le_self 1000 fps) (by omega))
  obtain ⟨first, rest, pal, pimgs, tr, -, -, -, -, hg⟩ := engiffen_ok_inv h
  subst hg
  exact ⟨hmod, by simp [Gif.writtenDelays, hmod]⟩


/-- The `Gif` produced by `engiffen labLin constNQ id [imgB] 10 (NeuQuant 1)`. -/
def gifSampleB : Gif :=
  { palette := List.replicate 768 0, transparency := some 7,
    width := 2, height := 1, images := [[7, 9]], delay := 100 }

/-- Witness for C9 at a concrete input: a successful NeuQuant run at
fps 10 stores delay 100 and writes 10 per frame. -/
theorem engiffen_delay_arith_witness :
    gifSampleB.delay = 1000 / 10 ∧
      gifSampleB.writtenDelays = gifSampleB.images.map fun _ => (1000 / 10) / 10 :=
  engiffen_delay_arith labLin constNQ id [imgB] 10 (.NeuQuant 1) gifSampleB
    (by decide) (by decide!)

theorem samplePixel_eq (s x y : Nat) (hs : 1 ≤ s) (px : Pixel) :
    samplePixel s x y px =
      if s ∣ x ∧ s ∣ y then
        (if px.a = 0 then [0, 0, 0, 0] else [px.r, px.g, px.b, 255])
      else [] := by
  unfold samplePixel
  rcases Nat.lt_or_ge 1 s with h1 | h1
  · by_cases hx : x % s = 0 <;> by_cases hy : y % s = 0 <;>
      simp [h1, hx, hy, Nat.dvd_iff_mod_eq_zero]
  · have hs1 : s = 1 := le_antisymm h1 hs
    subst hs1
    simp

theorem flatMap_filter_guard {α β : Type} (p : α → Bool) (f : α → List β)
    (l : List α) :
    (l.filter p).flatMap f = l.flatMap fun x => if p x then f x else [] := by
  induction l with
  | nil => simp
  | cons x xs ih => by_cases hx : p x <;> simp [hx, ih]

/-- C8: for any sample rate `S ≥ 1`, the byte sequence fed to the NeuQuant
trainer is exactly the concatenation, in raster order, of the pixels whose
column and row are both multiples of `S` (all pixels when `S = 1`), each
normalized to `(0,0,0,0)` when its alpha is 0 and to `(R,G,B,255)`
otherwise. -/
theorem sampleColors_stride_normalize (s : Nat) (hs : 1 ≤ s) (imgs : List Image) :
    sampleColors s imgs = imgs.flatMap fun img =>
      (img.pixelsList.filter fun t => decide (s ∣ t.1) && decide (s ∣ t.2.1)).flatMap
        fun t => if t.2.2.a = 0 then [0, 0, 0, 0] else [t.2.2.r, t.2.2.g, t.2.2.b, 255] := by
  unfold sampleColors
  congr 1
  funext img
  rw [flatMap_filter_guard]
  congr 1
  funext t
  obtain ⟨x, y, px⟩ := t
  rw [samplePixel_eq s x y hs]
  by_cases hxy : s ∣ x ∧ s ∣ y <;> simp [hxy]

/-- Witness for C8 at a concrete input: stride 2 on the 2×1 frame `imgB`
keeps only the pixel at `(0,0)` (a transparent one, normalized to
`0,0,0,0`). -/
theorem sampleColors_stride_normalize_witness :
    sampleColors 2 [imgB] = [imgB].flatMap fun img =>
      (img.pixelsList.filter fun t => decide (2 ∣ t.1) && decide (2 ∣ t.2.1)).flatMap
        fun t => if t.2.2.a = 0 then [0, 0, 0, 0] else [t.2.2.r, t.2.2.g, t.2.2.b, 255] :=
  sampleColors_stride_normalize 2 (by decide) [imgB]

theorem mem_firstOcc_foldl (l : List Pixel) :
    ∀ (acc : List Pixel) (c : Pixel),
      c ∈ l.foldl (fun acc c => if c ∈ acc then acc else acc ++ [c]) acc ↔
        c ∈ acc ∨ c ∈ l := by
  induction l with
  | nil => simp
  | cons x xs ih =>
      intro acc c
      simp only [List.foldl_cons, ih]
      by_cases hx : x ∈ acc
      · rw [if_pos hx]
        constructor
        · rintro (h | h)
          · exact Or.inl h
          · exact Or.inr (List.mem_cons_of_mem x h)
        · rintro (h | h)
          · exact Or.inl h
          · rcases List.mem_cons.mp h with rfl | h2
            · exact Or.inl hx
            · exact Or.inr h2
      · rw [if_neg hx]
        simp only [List.mem_append, List.mem_singleton, List.mem_cons]
        tauto

theorem mem_firstOccurrences (l : List Pixel) (c : Pixel) :
    c ∈ firstOccurrences l ↔ c ∈ l := by
  unfold firstOccurrences
  rw [mem_firstOcc_foldl]
  simp

theorem firstOccurrences_append_one (l : List Pixel) (c : Pixel) :
    firstOccurrences (l ++ [c]) =
      if c ∈ l then firstOccurrences l else firstOccurrences l ++ [c] := by
  have h : firstOccurrences (l ++ [c])
      = if c ∈ firstOccurrences l then firstOccurrences l
        else firstOccurrences l ++ [c] := by
    unfold firstOccurrences
    rw [List.foldl_append]
    simp only [List.foldl_cons, List.foldl_nil]
  rw [h]
  by_cases hc : c ∈ l
  · rw [if_pos ((mem_firstOccurrences l c).mpr hc), if_pos hc]
  · rw [if_neg (fun hh => hc ((mem_firstOccurrences l c).mp hh)), if_neg hc]

/-- The invariant of the NeuQuant mapping pass after processing the pixel
sequence `seen`: the cache holds exactly the resolved colors (the members
of `seen`), each mapped through the trainer, and the transparency
candidate is the last fully transparent color in resolution order. -/
def nqInv (quant : NeuQuantModel) (st : List (Pixel × Nat) × Option Nat)
    (seen : List Pixel) : Prop :=
  (∀ c, mapGet? st.1 c = if c ∈ seen then some (quant.indexOf c % 256) else none) ∧
    st.2 = (((firstOccurrences seen).filter fun c => c.a == 0).getLast?).map
      fun c => quant.indexOf c % 256

theorem nqInv_init (quant : NeuQuantModel) : nqInv quant ([], none) [] := by
  constructor
  · intro c
    simp [mapGet?, firstOccurrences]
  · simp [firstOccurrences]

theorem nqResolve_inv (quant : NeuQuantModel)
    (st : List (Pixel × Nat) × Option Nat) (seen : List Pixel) (px : Pixel)
    (h : nqInv quant st seen) :
    nqInv quant (nqResolve quant st px).1 (seen ++ [px]) ∧
      (nqResolve quant st px).2 = quant.indexOf px % 256 := by
  obtain ⟨hc, ht⟩ := h
  by_cases hpx : px ∈ seen
  · have hpxg : mapGet? st.1 px = some (quant.indexOf px % 256) := by
      rw [hc px, if_pos hpx]
    unfold nqResolve
    rw [hpxg]
    refine ⟨⟨?_, ?_⟩, rfl⟩
    · intro c
      rw [hc c]
      by_cases hcs : c ∈ seen
      · rw [if_pos hcs, if_pos (List.mem_append_left _ hcs)]
      · rw [if_neg hcs, if_neg ?_]
        intro hmem
        rcases List.mem_append.mp hmem with h1 | h1
        · exact hcs h1
        · rw [List.mem_singleton.mp h1] at hcs
          exact hcs hpx
    · rw [firstOccurrences_append_one, if_pos hpx, ht]
  · have hpxg : mapGet? st.1 px = none := by
      rw [hc px, if_neg hpx]
    unfold nqResolve
    rw [hpxg]
    refine ⟨⟨?_, ?_⟩, rfl⟩
    · intro c
      rw [mapGet?_mapInsert]
      by_cases hcpx : px = c
      · subst hcpx
        rw [if_pos rfl, if_pos (List.mem_append_right _ (List.mem_singleton_self px))]
      · rw [if_neg hcpx, hc c]
        by_cases hcs : c ∈ seen
        · rw [if_pos hcs, if_pos (List.mem_append_left _ hcs)]
        · rw [if_neg hcs, if_neg ?_]
          intro hmem
          rcases List.mem_append.mp hmem with h1 | h1
          · exact hcs h1
          · exact hcpx (List.mem_singleton.mp h1).symm
    · rw [firstOccurrences_append_one, if_neg hpx, List.filter_append]
      by_cases ha : px.a = 0
      · simp only [List.filter_cons, ha]
        simp [List.getLast?_concat]
      · have : (List.filter (fun c => c.a == 0) [px]) = [] := by simp [ha]
        rw [this, List.append_nil, ht]
        simp [ha]

theorem nqMapPixels_inv (quant : NeuQuantModel) :
    ∀ (ps : List Pixel) (st : List (Pixel × Nat) × Option Nat)
      (seen : List Pixel), nqInv quant st seen →
      nqInv quant (nqMapPixels quant st ps).1 (seen ++ ps) ∧
        (nqMapPixels quant st ps).2 = ps.map fun px => quant.indexOf px % 256 := by
  intro ps
  induction ps with
  | nil =>
      intro st seen h
      simpa [nqMapPixels] using h
  | cons px rest ih =>
      intro st seen h
      obtain ⟨h1, h1v⟩ := nqResolve_inv quant st seen px h
      obtain ⟨h2, h2v⟩ := ih (nqResolve quant st px).1 (seen ++ [px]) h1
      have hseen : seen ++ [px] ++ rest = seen ++ px :: rest := by simp
      rw [hseen] at h2
      exact ⟨h2, by simp [nqMapPixels, h1v, h2v]⟩

theorem nqMapImages_inv (quant : NeuQuantModel) :
    ∀ (l : List Image) (st : List (Pixel × Nat) × Option Nat)
      (seen : List Pixel), nqInv quant st seen →
      nqInv quant (nqMapImages quant st l).1 (seen ++ l.flatMap Image.pixelColors) ∧
        (nqMapImages quant st l).2
          = l.map fun img => img.pixelColors.map fun px => quant.indexOf px % 256 := by
  intro l
  induction l with
  | nil =>
      intro st seen h
      simpa [nqMapImages] using h
  | cons img rest ih =>
      intro st seen h
      obtain ⟨h1, h1v⟩ := nqMapPixels_inv quant img.pixelColors st seen h
      obtain ⟨h2, h2v⟩ :=
        ih (nqMapPixels quant st img.pixelColors).1 (seen ++ img.pixelColors) h1
      have hseen : seen ++ img.pixelColors ++ rest.flatMap Image.pixelColors
          = seen ++ (img :: rest).flatMap Image.pixelColors := by simp
      rw [hseen] at h2
      exact ⟨h2, by simp [nqMapImages, h1v, h2v]⟩

/-- Full characterization of `neuquant_palettize` with a nonzero sample
rate: the 768-byte trained palette, every pixel of every frame resolved
through the trainer (the cache is semantically transparent), and the
transparency candidate equal to the last fully transparent color in
resolution order. -/
theorem neuquant_palettize_eq (nqNew : List Nat → NeuQuantModel)
    (imgs : List Image) (s : Nat) (hs : s ≠ 0) :
    neuquant_palettize nqNew imgs s = some
      ((nqNew (sampleColors s imgs)).colorMapRgb,
       imgs.map fun img => img.pixelColors.map
         fun px => (nqNew (sampleColors s imgs)).indexOf px % 256,
       (((resolutionOrder imgs).filter fun c => c.a == 0).getLast?).map
         fun c => (nqNew (sampleColors s imgs)).indexOf c % 256) := by
  unfold neuquant_palettize
  rw [if_neg hs]
  obtain ⟨⟨-, htr⟩, hv⟩ :=
    nqMapImages_inv (nqNew (sampleColors s imgs)) imgs ([], none) []
      (nqInv_init _)
  show some ((nqNew (sampleColors s imgs)).colorMapRgb,
      (nqMapImages (nqNew (sampleColors s imgs)) ([], none) imgs).2,
      (nqMapImages (nqNew (sampleColors s imgs)) ([], none) imgs).1.2) = _
  rw [hv, htr]
  rfl

/-- C7: on a successful NeuQuant call, the recorded Transparency Index is
the index resolved for the fully transparent color that was resolved last
during the mapping pass (a color is resolved — `or_insert_with` runs — at
its first occurrence; each such resolution of an alpha-0 pixel overwrites
the prior candidate), and it is `none` exactly when no pixel of any frame
has alpha 0.  `Option` carries at most one value, so at most one
Transparency Index is ever recorded. -/
theorem neuquant_transparency_last_resolved {D : Type} [LinearOrderedCommRing D]
    (lab : LabFn D) (nqNew : List Nat → NeuQuantModel)
    (order : List (Pixel × Nat) → List (Pixel × Nat))
    (imgs : List Image) (fps : Nat) (s : Nat) (g : Gif)
    (h : engiffen lab nqNew order imgs fps (.NeuQuant s) = .ok g) :
    g.transparency = (((resolutionOrder imgs).filter fun c => c.a == 0).getLast?).map
        (fun c => (nqNew (sampleColors s imgs)).indexOf c % 256) ∧
      (g.transparency = none ↔ ∀ img ∈ imgs, ∀ px ∈ img.pixelColors, px.a ≠ 0) := by
  obtain ⟨first, rest, pal, pimgs, tr, himgs, -, -, hpal, hg⟩ := engiffen_ok_inv h
  subst himgs
  have hs : s ≠ 0 := by
    intro hs0
    subst hs0
    rw [show palettizeOf lab nqNew order (first :: rest) (.NeuQuant 0)
        = neuquant_palettize nqNew (first :: rest) 0 from rfl] at hpal
    simp [neuquant_palettize] at hpal
  rw [show palettizeOf lab nqNew order (first :: rest) (.NeuQuant s)
      = neuquant_palettize nqNew (first :: rest) s from rfl,
    neuquant_palettize_eq nqNew (first :: rest) s hs] at hpal
  have hp3 : (((resolutionOrder (first :: rest)).filter fun c => c.a == 0).getLast?).map
      (fun c => (nqNew (sampleColors s (first :: rest))).indexOf c % 256) = tr :=
    congrArg (fun t => t.2.2) (Option.some.inj hpal)
  subst hg
  refine ⟨hp3.symm, ?_⟩
  rw [show (Gif.mk pal tr (first.width % 65536) (first.height % 65536) pimgs
      ((1000 / fps) % 65536)).transparency = tr from rfl, ← hp3]
  rw [Option.map_eq_none', List.getLast?_eq_none_iff, List.filter_eq_nil_iff]
  simp only [resolutionOrder]
  constructor
  · intro hall img himg px hpx ha0
    exact hall px
      ((mem_firstOccurrences _ px).mpr (List.mem_flatMap.mpr ⟨img, himg, hpx⟩))
      (by simp [ha0])
  · intro hall c hc hbeq
    obtain ⟨img, himg, hpx⟩ := List.mem_flatMap.mp ((mem_firstOccurrences _ c).mp hc)
    exact hall img himg c hpx (by simpa using hbeq)

/-- Witness for C7 at a concrete input: `imgB` has one transparent and one
opaque pixel; the recorded index is the transparent color's. -/
theorem neuquant_transparency_last_resolved_witness :
    gifSampleB.transparency
        = (((resolutionOrder [imgB]).filter fun c => c.a == 0).getLast?).map
          (fun c => (constNQ (sampleColors 1 [imgB])).indexOf c % 256) ∧
      (gifSampleB.transparency = none ↔
        ∀ img ∈ [imgB], ∀ px ∈ img.pixelColors, px.a ≠ 0) :=
  neuquant_transparency_last_resolved labLin constNQ id [imgB] 10 1 gifSampleB
    (by decide)

theorem closestStep_fst {D : Type} [LinearOrderedCommRing D] (cl : D × D × D)
    (st : Nat × Option D) (ip : Nat × Pixel × (D × D × D)) :
    (closestStep cl st ip).1 = st.1 ∨ (closestStep cl st ip).1 = ip.1 := by
  obtain ⟨i, d⟩ := st
  cases d with
  | none => exact Or.inr rfl
  | some b =>
      unfold closestStep
      dsimp only
      split
      · exact Or.inl rfl
      · exact Or.inr rfl

theorem closest_fold_fst {D : Type} [LinearOrderedCommRing D] (cl : D × D × D) :
    ∀ (l : List (Nat × Pixel × (D × D × D))) (st : Nat × Option D),
      (l.foldl (closestStep cl) st).1 = st.1 ∨
        (l.foldl (closestStep cl) st).1 ∈ l.map Prod.fst := by
  intro l
  induction l with
  | nil => intro st; exact Or.inl rfl
  | cons ip rest ih =>
      intro st
      rw [List.foldl_cons]
      rcases ih (closestStep cl st ip) with h | h
      · rw [h]
        rcases closestStep_fst cl st ip with h2 | h2
        · exact Or.inl h2
        · exact Or.inr (by simp [h2])
      · exact Or.inr (by simp [h])

theorem closestIndex_lt {D : Type} [LinearOrderedCommRing D]
    (palette : List (Pixel × (D × D × D))) (cl : D × D × D)
    (hne : palette ≠ []) : closestIndex palette cl < palette.length := by
  unfold closestIndex
  rcases closest_fold_fst cl palette.enum (0, none) with h | h
  · rw [h]
    exact List.length_pos.mpr hne
  · rw [List.enum_map_fst] at h
    exact List.mem_range.mp h

theorem mapInsert_values_lt (m : List (Pixel × Nat)) (k : Pixel) (v N : Nat)
    (hv : ∀ c w, mapGet? m c = some w → w < N) (hvN : v < N) :
    ∀ c w, mapGet? (mapInsert m k v) c = some w → w < N := by
  intro c w h
  rw [mapGet?_mapInsert] at h
  by_cases hk : k = c
  · rw [if_pos hk] at h
    rw [← Option.some.inj h]
    exact hvN
  · rw [if_neg hk] at h
    exact hv c w h

theorem foldl_mapInsert_isSome {D : Type} [LinearOrderedCommRing D]
    (l : List (Nat × Pixel × (D × D × D))) :
    ∀ (m : List (Pixel × Nat)) (c : Pixel),
      (mapGet? (l.foldl (fun m ic => mapInsert m ic.2.1 (ic.1 % 256)) m) c).isSome ↔
        (mapGet? m c).isSome ∨ c ∈ l.map fun ic => ic.2.1 := by
  induction l with
  | nil => simp
  | cons ip rest ih =>
      intro m c
      rw [List.foldl_cons, ih]
      have hins : (mapGet? (mapInsert m ip.2.1 (ip.1 % 256)) c).isSome ↔
          ip.2.1 = c ∨ (mapGet? m c).isSome := by
        rw [mapGet?_mapInsert]
        by_cases hk : ip.2.1 = c <;> simp [hk]
      rw [hins]
      simp only [List.map_cons, List.mem_cons]
      constructor
      · rintro ((h | h) | h)
        · exact Or.inr (Or.inl h.symm)
        · exact Or.inl h
        · exact Or.inr (Or.inr h)
      · rintro (h | h | h)
        · exact Or.inl (Or.inr h)
        · exact Or.inl (Or.inl h.symm)
        · exact Or.inr h

theorem foldl_mapInsert_values_lt {D : Type} [LinearOrderedCommRing D]
    (N : Nat) :
    ∀ (l : List (Nat × Pixel × (D × D × D))) (m : List (Pixel × Nat)),
      (∀ ip ∈ l, ip.1 % 256 < N) →
      (∀ c v, mapGet? m c = some v → v < N) →
      ∀ c v, mapGet? (l.foldl (fun m ic => mapInsert m ic.2.1 (ic.1 % 256)) m) c
        = some v → v < N := by
  intro l
  induction l with
  | nil => intro m _ hm; exact hm
  | cons ip rest ih =>
      intro m hl hm
      rw [List.foldl_cons]
      exact ih (mapInsert m ip.2.1 (ip.1 % 256))
        (fun ip' h' => hl ip' (List.mem_cons_of_mem ip h'))
        (mapInsert_values_lt m ip.2.1 (ip.1 % 256) N hm (hl ip (List.mem_cons_self ip rest)))

theorem assignRest_values_lt {D : Type} [LinearOrderedCommRing D]
    (palette : List (Pixel × (D × D × D))) (N : Nat) :
    ∀ (rest : List (Pixel × (D × D × D))) (m m' : List (Pixel × Nat)),
      assignRest palette m rest = some m' →
      (∀ c v, mapGet? m c = some v → v < N) →
      (∀ c v, mapGet? m' c = some v → v < N) := by
  intro rest
  induction rest with
  | nil =>
      intro m m' h hm
      rw [← Option.some.inj h]
      exact hm
  | cons e cs ih =>
      intro m m' h hm
      unfold assignRest at h
      cases hpc : palette[closestIndex palette e.2]? with
      | none => rw [hpc] at h; simp at h
      | some p =>
          rw [hpc] at h
          replace h : (match mapGet? m p.1 with
              | none => none
              | some idx => assignRest palette (mapInsert m e.1 idx) cs)
              = some m' := h
          cases hpg : mapGet? m p.1 with
          | none => rw [hpg] at h; simp at h
          | some idx =>
              rw [hpg] at h
              replace h : assignRest palette (mapInsert m e.1 idx) cs
                  = some m' := h
              exact ih (mapInsert m e.1 idx) m' h
                (mapInsert_values_lt m e.1 idx N hm (hm p.1 idx hpg))

theorem assignRest_sound {D : Type} [LinearOrderedCommRing D]
    (palette : List (Pixel × (D × D × D))) :
    ∀ (rest : List (Pixel × (D × D × D))) (m : List (Pixel × Nat)),
      (rest ≠ [] → palette ≠ []) →
      (∀ p ∈ palette.map Prod.fst, (mapGet? m p).isSome) →
      ∃ m', assignRest palette m rest = some m' ∧
        (∀ c, (mapGet? m c).isSome → (mapGet? m' c).isSome) ∧
        (∀ e ∈ rest, (mapGet? m' e.1).isSome) := by
  intro rest
  induction rest with
  | nil =>
      intro m _ _
      exact ⟨m, rfl, fun c h => h, fun e he => absurd he (List.not_mem_nil e)⟩
  | cons e cs ih =>
      intro m hne hpal
      have hplt := closestIndex_lt palette e.2 (hne (by simp))
      have hpc : palette[closestIndex palette e.2]?
          = some palette[closestIndex palette e.2] :=
        List.getElem?_eq_getElem hplt
      have hpm : (mapGet? m (palette[closestIndex palette e.2]).1).isSome :=
        hpal _ (List.mem_map_of_mem Prod.fst (palette.getElem_mem hplt))
      obtain ⟨idx, hidx⟩ := Option.isSome_iff_exists.mp hpm
      have hstep : assignRest palette m (e :: cs)
          = assignRest palette (mapInsert m e.1 idx) cs := by
        show (match palette[closestIndex palette e.2]? with
          | none => none
          | some p =>
              match mapGet? m p.1 with
              | none => none
              | some idx => assignRest palette (mapInsert m e.1 idx) cs) = _
        rw [hpc]
        show (match mapGet? m (palette[closestIndex palette e.2]).1 with
          | none => none
          | some idx => assignRest palette (mapInsert m e.1 idx) cs) = _
        rw [hidx]
      have hmono : ∀ c, (mapGet? m c).isSome →
          (mapGet? (mapInsert m e.1 idx) c).isSome := by
        intro c hc
        rw [mapGet?_mapInsert]
        by_cases hk : e.1 = c
        · rw [if_pos hk]; rfl
        · rw [if_neg hk]; exact hc
      obtain ⟨m', hm', hmono', hall⟩ := ih (mapInsert m e.1 idx)
        (fun _ => hne (by simp)) (fun p hp => hmono p (hpal p hp))
      refine ⟨m', hstep ▸ hm', fun c hc => hmono' c (hmono c hc), ?_⟩
      intro e' he'
      rcases List.mem_cons.mp he' with rfl | h2
      · refine hmono' e'.1 ?_
        rw [mapGet?_mapInsert, if_pos rfl]
        rfl
      · exact hall e' h2

theorem naivePalette_length_le {D : Type} [LinearOrderedCommRing D]
    (lab : LabFn D) (order : List (Pixel × Nat)) :
    (naivePalette lab order).length ≤ 256 := by
  by_cases hlen : 256 < (naiveSorted lab order).length
  · rw [show naivePalette lab order = List.take 256 (naiveSorted lab order)
      from by simp [naivePalette, hlen]]
    rw [List.length_take]
    exact min_le_left 256 _
  · rw [show naivePalette lab order = naiveSorted lab order
      from by simp [naivePalette, hlen]]
    omega

theorem naiveRest_ne_palette {D : Type} [LinearOrderedCommRing D]
    (lab : LabFn D) (order : List (Pixel × Nat))
    (h : naiveRest lab order ≠ []) : naivePalette lab order ≠ [] := by
  by_cases hlen : 256 < (naiveSorted lab order).length
  · rw [show naivePalette lab order = List.take 256 (naiveSorted lab order)
      from by simp [naivePalette, hlen]]
    intro hcon
    have hlen2 := congrArg List.length hcon
    rw [List.length_take] at hlen2
    rcases Nat.min_eq_zero_iff.mp hlen2 with h0 | h0 <;> omega
  · exact absurd (by simp [naiveRest, hlen]) h

theorem naivePalette_append_rest {D : Type} [LinearOrderedCommRing D]
    (lab : LabFn D) (order : List (Pixel × Nat)) :
    naivePalette lab order ++ naiveRest lab order = naiveSorted lab order := by
  by_cases hlen : 256 < (naiveSorted lab order).length <;>
    simp [naivePalette, naiveRest, hlen]

theorem paletteBytes_length {D : Type} [LinearOrderedCommRing D]
    (lab : LabFn D) (order : List (Pixel × Nat)) :
    (paletteBytes lab order).length = 3 * (naivePalette lab order).length := by
  unfold paletteBytes
  rw [List.length_flatMap]
  have h1 : List.map (List.length ∘ fun c : Pixel × (D × D × D) =>
      [c.1.r, c.1.g, c.1.b]) (naivePalette lab order)
      = List.map (fun _ => 3) (naivePalette lab order) :=
    List.map_congr_left (fun c _ => by simp)
  rw [h1, List.map_const', List.sum_replicate, smul_eq_mul, Nat.mul_comm]

theorem naive_palettize_inv {D : Type} [LinearOrderedCommRing D]
    {lab : LabFn D} {order : List (Pixel × Nat)} {imgs : List Image}
    {pal : List Nat} {pimgs : List (List Nat)} {tr : Option Nat}
    (h : naive_palettize lab order imgs = some (pal, pimgs, tr)) :
    ∃ m, naiveMap lab order = some m ∧
      optTraverse (fun img => optTraverse (mapGet? m) img.pixelColors) imgs
        = some pimgs ∧
      pal = paletteBytes lab order ∧ tr = none := by
  unfold naive_palettize at h
  cases hm : naiveMap lab order with
  | none => rw [hm] at h; simp at h
  | some m =>
      rw [hm] at h
      replace h : (match optTraverse (fun img => optTraverse (mapGet? m)
            img.pixelColors) imgs with
          | none => none
          | some pimgs => some (paletteBytes lab order, pimgs, none))
          = some (pal, pimgs, tr) := h
      cases ht : optTraverse (fun img => optTraverse (mapGet? m) img.pixelColors) imgs with
      | none => rw [ht] at h; simp at h
      | some pimgs' =>
          rw [ht] at h
          replace h : some (paletteBytes lab order, pimgs', (none : Option Nat))
              = some (pal, pimgs, tr) := h
          have hinj := Option.some.inj h
          have h1 : paletteBytes lab order = pal := congrArg Prod.fst hinj
          have h2 : pimgs' = pimgs := congrArg (fun t => t.2.1) hinj
          have h3 : (none : Option Nat) = tr := congrArg (fun t => t.2.2) hinj
          exact ⟨m, rfl, h2 ▸ ht, h1.symm, h3.symm⟩

/-- C2: on any successful call, under either strategy, the palette has at
most 768 bytes (at most 256 three-byte RGB entries, exactly 768 for the
NeuQuant strategy), a whole number of entries, and every index stored in
any Index Frame addresses an entry of that palette. -/
theorem engiffen_palette_bounds {D : Type} [LinearOrderedCommRing D]
    (lab : LabFn D) (nqNew : List Nat → NeuQuantModel)
    (order : List (Pixel × Nat) → List (Pixel × Nat))
    (imgs : List Image) (fps : Nat) (q : Quantizer) (g : Gif)
    (h : engiffen lab nqNew order imgs fps q = .ok g) :
    g.palette.length ≤ 768 ∧ g.palette.length % 3 = 0 ∧
      ∀ fr ∈ g.images, ∀ i ∈ fr, i < g.palette.length / 3 := by
  obtain ⟨first, rest, pal, pimgs, tr, himgs, -, -, hpal, hg⟩ := engiffen_ok_inv h
  subst himgs
  subst hg
  show pal.length ≤ 768 ∧ pal.length % 3 = 0 ∧
    ∀ fr ∈ pimgs, ∀ i ∈ fr, i < pal.length / 3
  cases q with
  | Naive =>
      replace hpal : naive_palettize lab (order (frequencies (first :: rest)))
          (first :: rest) = some (pal, pimgs, tr) := hpal
      obtain ⟨m, hm, ht, hpalEq, -⟩ := naive_palettize_inv hpal
      subst hpalEq
      have hbl := paletteBytes_length lab (order (frequencies (first :: rest)))
      have hple := naivePalette_length_le lab (order (frequencies (first :: rest)))
      have hm0 : ∀ c v, mapGet? (naiveMap0 lab (order (frequencies (first :: rest)))) c
          = some v →
          v < (naivePalette lab (order (frequencies (first :: rest)))).length := by
        unfold naiveMap0
        refine foldl_mapInsert_values_lt _ _ _ ?_ ?_
        · intro ip hip
          have h1 : ip.1 ∈ (naivePalette lab
              (order (frequencies (first :: rest)))).enum.map Prod.fst :=
            List.mem_map_of_mem Prod.fst hip
          rw [List.enum_map_fst] at h1
          have h2 := List.mem_range.mp h1
          have h3 : ip.1 % 256 ≤ ip.1 := Nat.mod_le _ _
          omega
        · intro c v hcv
          simp [mapGet?] at hcv
      have hmv : ∀ c v, mapGet? m c = some v →
          v < (naivePalette lab (order (frequencies (first :: rest)))).length :=
        assignRest_values_lt _ _ _ _ _ hm hm0
      refine ⟨by omega, by omega, ?_⟩
      intro fr hfr i hi
      obtain ⟨img, -, hfr'⟩ := optTraverse_mem ht fr hfr
      obtain ⟨px, -, hpxv⟩ := optTraverse_mem hfr' i hi
      have := hmv px i hpxv
      omega
  | NeuQuant s =>
      have hs : s ≠ 0 := by
        intro hs0
        subst hs0
        replace hpal : neuquant_palettize nqNew (first :: rest) 0
            = some (pal, pimgs, tr) := hpal
        simp [neuquant_palettize] at hpal
      replace hpal : neuquant_palettize nqNew (first :: rest) s
          = some (pal, pimgs, tr) := hpal
      rw [neuquant_palettize_eq nqNew (first :: rest) s hs] at hpal
      have hinj := Option.some.inj hpal
      have hp1 : (nqNew (sampleColors s (first :: rest))).colorMapRgb = pal :=
        congrArg Prod.fst hinj
      have hp2 : ((first :: rest).map fun img => img.pixelColors.map
          fun px => (nqNew (sampleColors s (first :: rest))).indexOf px % 256)
          = pimgs := congrArg (fun t => t.2.1) hinj
      have hlen : pal.length = 768 := by
        rw [← hp1]
        exact (nqNew (sampleColors s (first :: rest))).colorMapRgb_length
      refine ⟨by omega, by omega, ?_⟩
      intro fr hfr i hi
      rw [← hp2] at hfr
      obtain ⟨img, -, hfr'⟩ := List.mem_map.mp hfr
      rw [← hfr'] at hi
      obtain ⟨px, -, hpx'⟩ := List.mem_map.mp hi
      have : i < 256 := by
        rw [← hpx']
        exact Nat.mod_lt _ (by omega)
      omega

/-- Witness for C2 at a concrete input: the successful run on `imgB`. -/
theorem engiffen_palette_bounds_witness :
    gifSampleB.palette.length ≤ 768 ∧ gifSampleB.palette.length % 3 = 0 ∧
      ∀ fr ∈ gifSampleB.images, ∀ i ∈ fr, i < gifSampleB.palette.length / 3 :=
  engiffen_palette_bounds labLin constNQ id [imgB] 10 (.NeuQuant 1) gifSampleB
    (by decide)

theorem naiveSorted_map_fst {D : Type} [LinearOrderedCommRing D]
    (lab : LabFn D) (order : List (Pixel × Nat)) :
    (naiveSorted lab order).map Prod.fst = (sortByFreqDesc order).map Prod.fst := by
  unfold naiveSorted
  rw [List.map_map]
  rfl

theorem naiveMap0_isSome_iff {D : Type} [LinearOrderedCommRing D]
    (lab : LabFn D) (order : List (Pixel × Nat)) (c : Pixel) :
    (mapGet? (naiveMap0 lab order) c).isSome ↔
      c ∈ (naivePalette lab order).map Prod.fst := by
  unfold naiveMap0
  rw [foldl_mapInsert_isSome]
  have h1 : (naivePalette lab order).enum.map (fun ic => ic.2.1)
      = (naivePalette lab order).map Prod.fst := by
    rw [show (fun ic : Nat × Pixel × (D × D × D) => ic.2.1)
        = Prod.fst ∘ Prod.snd from rfl]
    rw [← List.map_map, List.enum_map_snd]
  rw [h1]
  simp [mapGet?]

theorem findMismatch_none (d0 : Nat × Nat) :
    ∀ l : List Image, (∀ img ∈ l, dims img = d0) → findMismatch d0 l = none := by
  intro l
  induction l with
  | nil => intro _; rfl
  | cons img rest ih =>
      intro h
      have h0 := h img (List.mem_cons_self img rest)
      have hr := ih fun i hi => h i (List.mem_cons_of_mem img hi)
      simp [findMismatch, h0, hr]

theorem naive_palettize_sound {D : Type} [LinearOrderedCommRing D]
    (lab : LabFn D) (order : List (Pixel × Nat)) (imgs : List Image)
    (hord : order.Perm (frequencies imgs)) :
    ∃ pimgs, naive_palettize lab order imgs
        = some (paletteBytes lab order, pimgs, none) ∧
      pimgs.length = imgs.length ∧
      ∀ fr ∈ pimgs, ∃ img ∈ imgs, fr.length = img.pixelColors.length := by
  have hsortkeys : ∀ c : Pixel, c ∈ (naiveSorted lab order).map Prod.fst ↔
      c ∈ (frequencies imgs).map Prod.fst := by
    intro c
    rw [naiveSorted_map_fst]
    exact Iff.trans
      (((List.perm_insertionSort _ order).map Prod.fst).mem_iff)
      ((hord.map Prod.fst).mem_iff)
  obtain ⟨m, hassign, hmono, hrest⟩ :=
    assignRest_sound (naivePalette lab order) (naiveRest lab order)
      (naiveMap0 lab order)
      (naiveRest_ne_palette lab order)
      (fun p hp => (naiveMap0_isSome_iff lab order p).mpr hp)
  have hm : naiveMap lab order = some m := hassign
  have hkeys : ∀ px, px ∈ imgs.flatMap Image.pixelColors →
      (mapGet? m px).isSome := by
    intro px hpx
    have h1 : px ∈ (naiveSorted lab order).map Prod.fst :=
      (hsortkeys px).mpr ((frequencies_keys imgs px).mpr hpx)
    rw [← naivePalette_append_rest, List.map_append, List.mem_append] at h1
    rcases h1 with h1 | h1
    · exact hmono px ((naiveMap0_isSome_iff lab order px).mpr h1)
    · obtain ⟨e, he, hfst⟩ := List.mem_map.mp h1
      exact hfst ▸ hrest e he
  have houter : ∀ img ∈ imgs,
      ((fun img => optTraverse (mapGet? m) img.pixelColors) img).isSome := by
    intro img himg
    obtain ⟨fr, hfr⟩ := optTraverse_isSome
      (fun px hpx => hkeys px (List.mem_flatMap.mpr ⟨img, himg, hpx⟩))
    show (optTraverse (mapGet? m) img.pixelColors).isSome = true
    rw [hfr]
    rfl
  obtain ⟨pimgs, hpimgs⟩ := optTraverse_isSome houter
  refine ⟨pimgs, ?_, optTraverse_length hpimgs, ?_⟩
  · show (match naiveMap lab order with
      | none => none
      | some m =>
          match optTraverse (fun img : Image => optTraverse (mapGet? m)
              img.pixelColors) imgs with
          | none => none
          | some pimgs => some (paletteBytes lab order, pimgs, none)) = _
    rw [hm]
    show (match optTraverse (fun img : Image => optTraverse (mapGet? m)
        img.pixelColors) imgs with
      | none => none
      | some pimgs => some (paletteBytes lab order, pimgs, none)) = _
    rw [hpimgs]
  · intro fr hfr
    obtain ⟨img, himg, hfr'⟩ := optTraverse_mem hpimgs fr hfr
    exact ⟨img, himg, optTraverse_length hfr'⟩

theorem engiffen_ok_of_palettize {D : Type} [LinearOrderedCommRing D]
    (lab : LabFn D) (nqNew : List Nat → NeuQuantModel)
    (order : List (Pixel × Nat) → List (Pixel × Nat))
    (first : Image) (rest : List Image) (fps : Nat) (q : Quantizer)
    (pal : List Nat) (pimgs : List (List Nat)) (tr : Option Nat)
    (hdims : ∀ img ∈ first :: rest, dims img = dims first)
    (hfps : fps ≠ 0)
    (hpal : palettizeOf lab nqNew order (first :: rest) q = some (pal, pimgs, tr)) :
    engiffen lab nqNew order (first :: rest) fps q
      = .ok (Gif.mk pal tr (first.width % 65536) (first.height % 65536)
          pimgs ((1000 / fps) % 65536)) := by
  rw [engiffen_cons, findMismatch_none (dims first) (first :: rest) hdims]
  show (match palettizeOf lab nqNew order (first :: rest) q with
    | none => EResult.panics
    | some (pal, pimgs, tr) =>
        if fps = 0 then EResult.panics
        else EResult.ok (Gif.mk pal tr (first.width % 65536)
            (first.height % 65536) pimgs ((1000 / fps) % 65536))) = _
  rw [hpal]
  show (if fps = 0 then EResult.panics
    else EResult.ok (Gif.mk pal tr (first.width % 65536)
        (first.height % 65536) pimgs ((1000 / fps) % 65536))) = _
  rw [if_neg hfps]

/-- C1: for a non-empty frame list of equal dimensions, positive fps and
either strategy (with a positive sample rate for NeuQuant; the frequency
table order being any permutation of the canonical table), `engiffen`
returns `Ok` with one index array per input frame, each holding exactly
`width * height` palette indices — no pixel is skipped regardless of the
sampling stride. -/
theorem engiffen_ok_frame_counts {D : Type} [LinearOrderedCommRing D]
    (lab : LabFn D) (nqNew : List Nat → NeuQuantModel)
    (order : List (Pixel × Nat) → List (Pixel × Nat))
    (first : Image) (rest : List Image) (fps : Nat) (q : Quantizer)
    (hdims : ∀ img ∈ first :: rest, dims img = dims first)
    (hfps : 1 ≤ fps)
    (hq : q = .Naive ∨ ∃ s, 1 ≤ s ∧ q = .NeuQuant s)
    (hord : (order (frequencies (first :: rest))).Perm
      (frequencies (first :: rest))) :
    ∃ g, engiffen lab nqNew order (first :: rest) fps q = .ok g ∧
      g.images.length = (first :: rest).length ∧
      ∀ fr ∈ g.images, fr.length = first.width * first.height := by
  have hwh : ∀ img ∈ first :: rest,
      img.pixelColors.length = first.width * first.height := by
    intro img himg
    have hd := hdims img himg
    have hw : img.width = first.width := congrArg Prod.fst hd
    have hh : img.height = first.height := congrArg Prod.snd hd
    rw [pixelColors_length, hw, hh]
  rcases hq with rfl | ⟨s, hs, rfl⟩
  · obtain ⟨pimgs, hnp, hlen, hfrlen⟩ :=
      naive_palettize_sound lab (order (frequencies (first :: rest)))
        (first :: rest) hord
    refine ⟨_, engiffen_ok_of_palettize lab nqNew order first rest fps .Naive
      _ pimgs none hdims (by omega) hnp, hlen, ?_⟩
    intro fr hfr
    obtain ⟨img, himg, hfr'⟩ := hfrlen fr hfr
    rw [hfr', hwh img himg]
  · have hnq := neuquant_palettize_eq nqNew (first :: rest) s (by omega)
    refine ⟨_, engiffen_ok_of_palettize lab nqNew order first rest fps
      (.NeuQuant s) _ _ _ hdims (by omega) hnq, by simp, ?_⟩
    intro fr hfr
    simp only [List.mem_map] at hfr
    obtain ⟨img, himg, hfr'⟩ := hfr
    rw [← hfr', List.length_map, hwh img himg]

/-- Witness for C1 at a concrete input: the Naive strategy on `[imgA]`. -/
theorem engiffen_ok_frame_counts_witness :
    ∃ g, engiffen labLin constNQ id [imgA] 10 .Naive = .ok g ∧
      g.images.length = [imgA].length ∧
      ∀ fr ∈ g.images, fr.length = imgA.width * imgA.height :=
  engiffen_ok_frame_counts labLin constNQ id imgA [] 10 .Naive
    (by decide) (by decide) (Or.inl rfl) (List.Perm.refl _)

/-- C10: `engiffen` does not validate `fps`.  For `fps = 0` on any
non-empty, equal-dimension frame set (with a valid strategy, so that the
palettization itself succeeds), the delay computation `1000 / fps`
divides by zero and the call panics instead of returning a typed
`Error`. -/
theorem engiffen_fps_zero_panics {D : Type} [LinearOrderedCommRing D]
    (lab : LabFn D) (nqNew : List Nat → NeuQuantModel)
    (order : List (Pixel × Nat) → List (Pixel × Nat))
    (first : Image) (rest : List Image) (q : Quantizer)
    (hdims : ∀ img ∈ first :: rest, dims img = dims first)
    (hq : q = .Naive ∨ ∃ s, 1 ≤ s ∧ q = .NeuQuant s)
    (hord : (order (frequencies (first :: rest))).Perm
      (frequencies (first :: rest))) :
    engiffen lab nqNew order (first :: rest) 0 q = .panics := by
  have hsome : ∃ r, palettizeOf lab nqNew order (first :: rest) q = some r := by
    rcases hq with rfl | ⟨s, hs, rfl⟩
    · obtain ⟨pimgs, hnp, -, -⟩ :=
        naive_palettize_sound lab (order (frequencies (first :: rest)))
          (first :: rest) hord
      exact ⟨_, hnp⟩
    · exact ⟨_, neuquant_palettize_eq nqNew (first :: rest) s (by omega)⟩
  obtain ⟨⟨pal, pimgs, tr⟩, hpal⟩ := hsome
  rw [engiffen_cons, findMismatch_none (dims first) (first :: rest) hdims]
  show (match palettizeOf lab nqNew order (first :: rest) q with
    | none => EResult.panics
    | some (pal, pimgs, tr) =>
        if (0 : Nat) = 0 then EResult.panics
        else EResult.ok (Gif.mk pal tr (first.width % 65536)
            (first.height % 65536) pimgs ((1000 / 0) % 65536))) = _
  rw [hpal]
  rfl

/-- Witness for C10 at a concrete input: `fps = 0` on `[imgA]` panics. -/
theorem engiffen_fps_zero_panics_witness :
    engiffen labLin constNQ id [imgA] 0 .Naive = .panics :=
  engiffen_fps_zero_panics labLin constNQ id imgA [] .Naive
    (by decide) (Or.inl rfl) (List.Perm.refl _)

theorem getCount_mergeFreq (fr : List (Pixel × Nat)) :
    ∀ (acc : List (Pixel × Nat)) (c : Pixel),
      getCount (mergeFreq acc fr) c =
        getCount acc c + (fr.map fun kv => if kv.1 = c then kv.2 else 0).sum := by
  induction fr with
  | nil => simp [mergeFreq]
  | cons kv rest ih =>
      intro acc c
      rw [mergeFreq_cons, ih, getCount_bumpBy]
      simp only [List.map_cons, List.sum_cons]
      omega

theorem getCount_mergeFold (tables : List (List (Pixel × Nat))) :
    ∀ (acc : List (Pixel × Nat)) (c : Pixel),
      getCount (tables.foldl mergeFreq acc) c =
        getCount acc c +
          (tables.map fun fr => (fr.map fun kv => if kv.1 = c then kv.2 else 0).sum).sum := by
  induction tables with
  | nil => simp
  | cons fr rest ih =>
      intro acc c
      rw [List.foldl_cons, ih, getCount_mergeFreq]
      simp only [List.map_cons, List.sum_cons]
      omega

/-- C6 (amended): the color counts produced by merging per-frame
frequency tables are independent of the merge order — folding any
permutation of the same collection of tables yields the same count for
every color (the `rayon` reduce sums matching keys, and addition is
commutative).  What the merge order (through the hash map's iteration
order) can still affect is only the relative position of equal-frequency
colors in the sorted table, as the counterexample shows. -/
theorem mergeFreq_counts_order_invariant
    (tables1 tables2 : List (List (Pixel × Nat)))
    (h : tables1.Perm tables2) (c : Pixel) :
    getCount (tables1.foldl mergeFreq []) c
      = getCount (tables2.foldl mergeFreq []) c := by
  rw [getCount_mergeFold, getCount_mergeFold]
  exact congrArg (getCount [] c + ·)
    ((h.map fun fr => (fr.map fun kv => if kv.1 = c then kv.2 else 0).sum).sum_eq)

/-- Witness for the amended C6 at a concrete input: two per-frame tables
merged in either order give the same counts. -/
theorem mergeFreq_counts_order_invariant_witness :
    getCount ([[(⟨0,0,0,255⟩, 1)], [(⟨0,0,0,255⟩, 2), (⟨1,1,1,255⟩, 5)]].foldl
        mergeFreq []) ⟨0,0,0,255⟩
      = getCount ([[(⟨0,0,0,255⟩, 2), (⟨1,1,1,255⟩, 5)], [(⟨0,0,0,255⟩, 1)]].foldl
        mergeFreq []) ⟨0,0,0,255⟩ :=
  mergeFreq_counts_order_invariant _ _ (by decide) ⟨0,0,0,255⟩

/-- Counterexample for C6: on a frame with two colors of equal frequency,
two `engiffen` runs that differ only in the (unspecified) iteration order
of the frequency hash map — both orders being permutations of the same
table — produce different palettes and different Index Frames, because
the stable sort keeps equal-frequency colors in table order. -/
theorem engiffen_naive_order_dependent_cex :
    ((frequencies [imgA]).reverse).Perm (frequencies [imgA]) ∧
      engiffen labLin constNQ (fun l => l) [imgA] 10 .Naive
        ≠ engiffen labLin constNQ (fun l => l.reverse) [imgA] 10 .Naive := by
  decide

/-- The squared Lab distance from `cl` to the palette entry at position
`k` (the default is irrelevant: it is only read in range). -/
def distAt {D : Type} [LinearOrderedCommRing D]
    (palette : List (Pixel × (D × D × D))) (cl : D × D × D) (k : Nat) : D :=
  squared_distance (palette.getD k (⟨0, 0, 0, 0⟩, cl)).2 cl

/-- `i` is the *last* index of a palette entry at minimal squared Lab
distance from `cl`: its distance is a minimum, and every later entry is
strictly farther. -/
def IsLastClosest {D : Type} [LinearOrderedCommRing D]
    (palette : List (Pixel × (D × D × D))) (cl : D × D × D) (i : Nat) : Prop :=
  i < palette.length ∧
    (∀ j, j < palette.length → distAt palette cl i ≤ distAt palette cl j) ∧
    (∀ j, i < j → j < palette.length → distAt palette cl i < distAt palette cl j)

theorem closest_fold_spec {D : Type} [LinearOrderedCommRing D]
    (cl : D × D × D) (palette : List (Pixel × (D × D × D))) :
    palette ≠ [] →
      palette.enum.foldl (closestStep cl) (0, none)
          = (closestIndex palette cl,
             some (distAt palette cl (closestIndex palette cl))) ∧
        IsLastClosest palette cl (closestIndex palette cl) := by
  induction palette using List.reverseRecOn with
  | nil => intro h; exact absurd rfl h
  | append_singleton l p ih =>
      intro _
      have hfold : (l ++ [p]).enum.foldl (closestStep cl) (0, none)
          = closestStep cl (l.enum.foldl (closestStep cl) (0, none))
            (l.length, p) := by
        rw [List.enum_append, List.foldl_append]
        rfl
      by_cases hl : l = []
      · subst hl
        refine ⟨rfl, Nat.zero_lt_one, ?_, ?_⟩
        · intro j hj
          have hj0 : j = 0 := by simpa using hj
          subst hj0
          exact le_refl _
        · intro j h1 h2
          have hci0 : closestIndex ([] ++ [p]) cl = 0 := rfl
          rw [hci0] at h1
          simp at h2
          omega
      · obtain ⟨hE, hciLt, hmin, hstrict⟩ := ih hl
        have hstep : closestStep cl
            (closestIndex l cl, some (distAt l cl (closestIndex l cl)))
            (l.length, p)
            = if distAt l cl (closestIndex l cl) < squared_distance p.2 cl
              then (closestIndex l cl, some (distAt l cl (closestIndex l cl)))
              else (l.length, some (squared_distance p.2 cl)) := rfl
        have hlen : (l ++ [p]).length = l.length + 1 := by simp
        have hdist_lt : ∀ j, j < l.length →
            distAt (l ++ [p]) cl j = distAt l cl j := by
          intro j hj
          unfold distAt
          rw [List.getD_append _ _ _ _ hj]
        have hdist_len : distAt (l ++ [p]) cl l.length
            = squared_distance p.2 cl := by
          unfold distAt
          rw [List.getD_append_right _ _ _ _ (le_refl _)]
          simp
        by_cases hmd : distAt l cl (closestIndex l cl) < squared_distance p.2 cl
        · have hEnew : (l ++ [p]).enum.foldl (closestStep cl) (0, none)
              = (closestIndex l cl, some (distAt l cl (closestIndex l cl))) := by
            rw [hfold, hE, hstep, if_pos hmd]
          have hcinew : closestIndex (l ++ [p]) cl = closestIndex l cl := by
            unfold closestIndex
            rw [hEnew, hE]
          constructor
          · rw [hEnew, hcinew, hdist_lt _ hciLt]
          · refine ⟨?_, ?_, ?_⟩
            · rw [hcinew, hlen]
              omega
            · intro j hj
              rw [hcinew, hdist_lt _ hciLt]
              rw [hlen] at hj
              rcases Nat.lt_or_ge j l.length with hjl | hjl
              · rw [hdist_lt _ hjl]
                exact hmin j hjl
              · have hj_eq : j = l.length := by omega
                subst hj_eq
                rw [hdist_len]
                exact le_of_lt hmd
            · intro j h1 h2
              rw [hcinew] at h1
              rw [hcinew, hdist_lt _ hciLt]
              rw [hlen] at h2
              rcases Nat.lt_or_ge j l.length with hjl | hjl
              · rw [hdist_lt _ hjl]
                exact hstrict j h1 hjl
              · have hj_eq : j = l.length := by omega
                subst hj_eq
                rw [hdist_len]
                exact hmd
        · have hEnew : (l ++ [p]).enum.foldl (closestStep cl) (0, none)
              = (l.length, some (squared_distance p.2 cl)) := by
            rw [hfold, hE, hstep, if_neg hmd]
          have hcinew : closestIndex (l ++ [p]) cl = l.length := by
            unfold closestIndex
            rw [hEnew]
          have hd : squared_distance p.2 cl ≤ distAt l cl (closestIndex l cl) :=
            le_of_not_lt hmd
          constructor
          · rw [hEnew, hcinew, hdist_len]
          · refine ⟨?_, ?_, ?_⟩
            · rw [hcinew, hlen]
              omega
            · intro j hj
              rw [hcinew, hdist_len]
              rw [hlen] at hj
              rcases Nat.lt_or_ge j l.length with hjl | hjl
              · rw [hdist_lt _ hjl]
                exact le_trans hd (hmin j hjl)
              · have hj_eq : j = l.length := by omega
                subst hj_eq
                rw [hdist_len]
            · intro j h1 h2
              rw [hcinew] at h1
              rw [hlen] at h2
              omega

theorem closestIndex_isLastClosest {D : Type} [LinearOrderedCommRing D]
    (palette : List (Pixel × (D × D × D))) (cl : D × D × D)
    (hne : palette ≠ []) :
    IsLastClosest palette cl (closestIndex palette cl) :=
  (closest_fold_spec cl palette hne).2

theorem foldl_mapInsert_frame {D : Type} [LinearOrderedCommRing D]
    (l : List (Nat × Pixel × (D × D × D))) :
    ∀ (m : List (Pixel × Nat)) (c : Pixel), c ∉ l.map (fun ic => ic.2.1) →
      mapGet? (l.foldl (fun m ic => mapInsert m ic.2.1 (ic.1 % 256)) m) c
        = mapGet? m c := by
  induction l with
  | nil => intro m c _; rfl
  | cons ic rest ih =>
      intro m c hc
      simp only [List.map_cons, List.mem_cons] at hc
      push_neg at hc
      rw [List.foldl_cons, ih _ c hc.2, mapGet?_mapInsert,
        if_neg (fun h => hc.1 h.symm)]

theorem foldl_mapInsert_get {D : Type} [LinearOrderedCommRing D]
    (l : List (Nat × Pixel × (D × D × D))) :
    ∀ (m : List (Pixel × Nat)), ((l.map fun ic => ic.2.1).Nodup) →
      ∀ ip ∈ l, mapGet? (l.foldl (fun m ic => mapInsert m ic.2.1 (ic.1 % 256)) m)
        ip.2.1 = some (ip.1 % 256) := by
  induction l with
  | nil => intro m _ ip hip; exact absurd hip (List.not_mem_nil ip)
  | cons ic rest ih =>
      intro m hnd ip hip
      simp only [List.map_cons, List.nodup_cons] at hnd
      rcases List.mem_cons.mp hip with rfl | h2
      · rw [List.foldl_cons, foldl_mapInsert_frame rest _ ip.2.1 hnd.1,
          mapGet?_mapInsert, if_pos rfl]
      · rw [List.foldl_cons]
        exact ih _ hnd.2 ip h2

theorem naiveMap0_get {D : Type} [LinearOrderedCommRing D]
    (lab : LabFn D) (order : List (Pixel × Nat))
    (hnd : ((naivePalette lab order).map Prod.fst).Nodup)
    (i : Nat) (h : i < (naivePalette lab order).length) :
    mapGet? (naiveMap0 lab order) ((naivePalette lab order)[i].1)
      = some (i % 256) := by
  unfold naiveMap0
  have hlen : i < (naivePalette lab order).enum.length := by
    rw [List.enum_length]
    exact h
  have hmem : (i, (naivePalette lab order)[i]) ∈ (naivePalette lab order).enum := by
    rw [← List.getElem_enum _ i hlen]
    exact List.getElem_mem hlen
  have hnd' : ((naivePalette lab order).enum.map fun ic => ic.2.1).Nodup := by
    rw [show (fun ic : Nat × Pixel × (D × D × D) => ic.2.1)
        = Prod.fst ∘ Prod.snd from rfl, ← List.map_map, List.enum_map_snd]
    exact hnd
  exact foldl_mapInsert_get _ [] hnd' (i, (naivePalette lab order)[i]) hmem

theorem assignRest_assigns {D : Type} [LinearOrderedCommRing D]
    (palette : List (Pixel × (D × D × D))) (hpne : palette ≠ []) :
    ∀ (rest : List (Pixel × (D × D × D))) (m : List (Pixel × Nat)),
      (rest.map Prod.fst).Nodup →
      (∀ c ∈ rest.map Prod.fst, c ∉ palette.map Prod.fst) →
      (∀ i, (h : i < palette.length) → mapGet? m palette[i].1 = some i) →
      ∃ m', assignRest palette m rest = some m' ∧
        (∀ c, c ∉ rest.map Prod.fst → mapGet? m' c = mapGet? m c) ∧
        ∀ e ∈ rest, mapGet? m' e.1 = some (closestIndex palette e.2) := by
  intro rest
  induction rest with
  | nil =>
      intro m _ _ _
      exact ⟨m, rfl, fun c _ => rfl, fun e he => absurd he (List.not_mem_nil e)⟩
  | cons e cs ih =>
      intro m hnd hdisj hpal
      simp only [List.map_cons, List.nodup_cons] at hnd
      have hlt := closestIndex_lt palette e.2 hpne
      have hpc : palette[closestIndex palette e.2]?
          = some palette[closestIndex palette e.2] :=
        List.getElem?_eq_getElem hlt
      have hidx : mapGet? m palette[closestIndex palette e.2].1
          = some (closestIndex palette e.2) := hpal _ hlt
      have hstep : assignRest palette m (e :: cs)
          = assignRest palette (mapInsert m e.1 (closestIndex palette e.2)) cs := by
        show (match palette[closestIndex palette e.2]? with
          | none => none
          | some p =>
              match mapGet? m p.1 with
              | none => none
              | some idx => assignRest palette (mapInsert m e.1 idx) cs) = _
        rw [hpc]
        show (match mapGet? m palette[closestIndex palette e.2].1 with
          | none => none
          | some idx => assignRest palette (mapInsert m e.1 idx) cs) = _
        rw [hidx]
      have he1np : e.1 ∉ palette.map Prod.fst :=
        hdisj e.1 (by simp)
      have hpal' : ∀ i, (h : i < palette.length) →
          mapGet? (mapInsert m e.1 (closestIndex palette e.2)) palette[i].1
            = some i := by
        intro i h
        rw [mapGet?_mapInsert, if_neg ?_, hpal i h]
        intro hcon
        apply he1np
        rw [hcon]
        exact List.mem_map_of_mem Prod.fst (palette.getElem_mem h)
      obtain ⟨m', hm', hframe, hall⟩ :=
        ih (mapInsert m e.1 (closestIndex palette e.2)) hnd.2
          (fun c hc => hdisj c (List.mem_cons_of_mem _ hc)) hpal'
      refine ⟨m', hstep ▸ hm', ?_, ?_⟩
      · intro c hc
        simp only [List.map_cons, List.mem_cons] at hc
        push_neg at hc
        rw [hframe c hc.2, mapGet?_mapInsert, if_neg (fun h => hc.1 h.symm)]
      · intro e' he'
        rcases List.mem_cons.mp he' with rfl | h2
        · rw [hframe e'.1 hnd.1, mapGet?_mapInsert, if_pos rfl]
        · exact hall e' h2

/-- C3 (amended): under the Naive strategy, when the distinct-color count
exceeds 256 (so a `rest` exists) and the frequency table has distinct
keys, every `rest` color is mapped in the final color → index map to
`closestIndex`, which is the index of a palette entry at *minimal*
squared Lab distance found by the linear scan — and on ties (equal
minimal distance) the candidate evaluated *last* in palette order wins:
every entry after the chosen index is strictly farther. -/
theorem naive_rest_maps_to_last_closest {D : Type} [LinearOrderedCommRing D]
    (lab : LabFn D) (order : List (Pixel × Nat))
    (hnd : (order.map Prod.fst).Nodup)
    (e : Pixel × (D × D × D)) (he : e ∈ naiveRest lab order) :
    (naiveMap lab order).map (fun m => mapGet? m e.1)
        = some (some (closestIndex (naivePalette lab order) e.2)) ∧
      IsLastClosest (naivePalette lab order) e.2
        (closestIndex (naivePalette lab order) e.2) := by
  have hsortnd : ((naiveSorted lab order).map Prod.fst).Nodup := by
    rw [naiveSorted_map_fst]
    exact (((List.perm_insertionSort _ order).map Prod.fst).nodup_iff).mpr hnd
  have hrne : naiveRest lab order ≠ [] := by
    intro hcon
    rw [hcon] at he
    exact absurd he (List.not_mem_nil e)
  have hpne := naiveRest_ne_palette lab order hrne
  rw [← naivePalette_append_rest, List.map_append, List.nodup_append] at hsortnd
  obtain ⟨hndp, hndr, hdisjpr⟩ := hsortnd
  have hple := naivePalette_length_le lab order
  have hpal0 : ∀ i, (h : i < (naivePalette lab order).length) →
      mapGet? (naiveMap0 lab order) (naivePalette lab order)[i].1 = some i := by
    intro i h
    rw [naiveMap0_get lab order hndp i h]
    exact congrArg some (Nat.mod_eq_of_lt (by omega))
  obtain ⟨m', hm', hframe, hall⟩ :=
    assignRest_assigns (naivePalette lab order) hpne (naiveRest lab order)
      (naiveMap0 lab order) hndr
      (fun c hcr hcp => hdisjpr hcp hcr) hpal0
  have hmEq : naiveMap lab order = some m' := hm'
  constructor
  · rw [hmEq, Option.map_some']
    rw [hall e he]
  · exact closestIndex_isLastClosest _ _ hpne

/-- A 257×1 frame with 257 distinct colors, each occurring once.  Palette
entries 0 and 1 share the RGB bytes (0,0,0) (they differ only in alpha,
which `Lab::from_rgba` ignores), so both are at the same — minimal — Lab
distance from the leftover color (1,0,0,255). -/
def c3Img : Image :=
  ⟨257, 1, fun x _ =>
    if x = 0 then ⟨0, 0, 0, 255⟩
    else if x = 1 then ⟨0, 0, 0, 254⟩
    else if x = 256 then ⟨1, 0, 0, 255⟩
    else ⟨2, x, 0, 255⟩⟩

/-- Counterexample for C3: with 257 distinct colors, palette entries 0
and 1 are at equal minimal squared Lab distance from the leftover color
(1,0,0,255) (entries 0 and 1 have identical RGB, and the equality holds
under any Lab conversion, in particular the crate's CIE Lab), yet the
leftover color is mapped to index 1 — the candidate evaluated *last*,
not first, in palette order.  The fold in the source replaces the
running best on `closest.1 < dist` being false, i.e. also on equality. -/
theorem naive_tie_first_candidate_cex :
    256 < (naiveSorted labLin (frequencies [c3Img])).length ∧
      (naivePalette labLin (frequencies [c3Img]))[0]?
        = some (⟨0, 0, 0, 255⟩, labOfPixel labLin ⟨0, 0, 0, 255⟩) ∧
      (naivePalette labLin (frequencies [c3Img]))[1]?
        = some (⟨0, 0, 0, 254⟩, labOfPixel labLin ⟨0, 0, 0, 254⟩) ∧
      squared_distance (labOfPixel labLin ⟨0, 0, 0, 255⟩)
          (labOfPixel labLin ⟨1, 0, 0, 255⟩)
        = squared_distance (labOfPixel labLin ⟨0, 0, 0, 254⟩)
          (labOfPixel labLin ⟨1, 0, 0, 255⟩) ∧
      (∀ p ∈ naivePalette labLin (frequencies [c3Img]),
        squared_distance (labOfPixel labLin ⟨0, 0, 0, 255⟩)
            (labOfPixel labLin ⟨1, 0, 0, 255⟩)
          ≤ squared_distance p.2 (labOfPixel labLin ⟨1, 0, 0, 255⟩)) ∧
      (naiveMap labLin (frequencies [c3Img])).map
          (fun m => mapGet? m ⟨1, 0, 0, 255⟩)
        = some (some 1) := by
  decide!

/-- Witness for the amended C3 at the concrete 257-color input: the
leftover color is assigned `closestIndex`, the last index of minimal
distance. -/
theorem naive_rest_maps_to_last_closest_witness :
    (naiveMap labLin (frequencies [c3Img])).map
        (fun m => mapGet? m (⟨1, 0, 0, 255⟩ : Pixel))
        = some (some (closestIndex (naivePalette labLin (frequencies [c3Img]))
          (labOfPixel labLin ⟨1, 0, 0, 255⟩))) ∧
      IsLastClosest (naivePalette labLin (frequencies [c3Img]))
        (labOfPixel labLin ⟨1, 0, 0, 255⟩)
        (closestIndex (naivePalette labLin (frequencies [c3Img]))
          (labOfPixel labLin ⟨1, 0, 0, 255⟩)) :=
  naive_rest_maps_to_last_closest labLin (frequencies [c3Img]) (by decide!)
    (⟨1, 0, 0, 255⟩, labOfPixel labLin ⟨1, 0, 0, 255⟩) (by decide!)
